import Mathlib

/-!
Shallow embedding of the color/size encoding core of `singlet/dataset/plot.py`
(the `Plot` plugin class): keyword-property normalization, categorical and
continuous color resolution inside `scatter_reduced`, quantile tiering for
`high_on_top`, and the dot-plot size/color encoding in `dot_plot`.

Python floats are modelled as `Option ℚ`: `some q` is a finite float, `none`
is a non-finite float (NaN or ±inf).  numpy division by zero produces a
non-finite float rather than raising, which `qdiv` reproduces.  Python
exceptions raised by an operation are modelled with `Except`.
-/

namespace Singlet

/-- The spec's taxonomy for caller configuration mistakes.  At the Python
level these surface as `IndexError` (out-of-range palette indexing) or
`ValueError` (numpy reductions over empty arrays); the spec classifies both
as `ConfigError`. -/
inductive ConfigError where
  | paletteTooSmall
  | emptyColumn
deriving DecidableEq, Repr

/-- An RGB color specification (e.g. the `default_color` argument). -/
structure Rgb where
  r : ℚ
  g : ℚ
  b : ℚ
deriving DecidableEq, Repr

/-- An RGBA color. -/
structure Rgba where
  r : ℚ
  g : ℚ
  b : ℚ
  a : ℚ
deriving DecidableEq, Repr

/-- The conversion `matplotlib.colors.to_rgba(color, alpha)`. -/
def to_rgba (c : Rgb) (alpha : ℚ) : Rgba :=
  ⟨c.r, c.g, c.b, alpha⟩

/-- A Python/numpy float scalar: `none` models a non-finite value. -/
abbrev QFloat := Option ℚ

/-- numpy scalar division: dividing by zero yields a non-finite float
(nan or ±inf) instead of raising. -/
def qdiv (a b : ℚ) : QFloat :=
  if b = 0 then none else some (a / b)

/-- The `min` of a numpy array: `none` on an empty array (which raises). -/
def listMin : List ℚ → Option ℚ
  | [] => none
  | x :: xs => some (xs.foldl min x)

/-- The `max` of a numpy array: `none` on an empty array (which raises). -/
def listMax : List ℚ → Option ℚ
  | [] => none
  | x :: xs => some (xs.foldl max x)

/-! ### Keyword-property dictionaries (`_update_properties`, lines 37-60)

Python `dict`s of matplotlib properties are modelled as association lists;
lookup returns the first binding of a key. -/

/-- A keyword-argument dictionary. -/
abbrev PropDict (V : Type) := List (String × V)

/-- Dictionary membership test / lookup (`kwargs[k]` / `k in kwargs`). -/
def dlookup {V : Type} : PropDict V → String → Option V
  | [], _ => none
  | p :: ps, k => if p.1 = k then some p.2 else dlookup ps k

/-- Membership `k in kwargs`. -/
def dmem {V : Type} (d : PropDict V) (k : String) : Bool :=
  (dlookup d k).isSome

/-- Assignment `kwargs[k] = v`: replace the binding of `k` if present, else append. -/
def dinsert {V : Type} : PropDict V → String → V → PropDict V
  | [], k, v => [(k, v)]
  | p :: ps, k, v => if p.1 = k then (k, v) :: ps else p :: dinsert ps k v

/-- The removal effect of `kwargs.pop(k)`. -/
def derase {V : Type} : PropDict V → String → PropDict V
  | [], _ => []
  | p :: ps, k => if p.1 = k then derase ps k else p :: derase ps k

/-- The alias table of `_sanitize_plot_properties` (long name, short name),
in source order. -/
def propAliases : List (String × String) :=
  [("linewidth", "lw"),
   ("antialiased", "aa"),
   ("color", "c"),
   ("linestyle", "ls"),
   ("markeredgecolor", "mec"),
   ("markeredgewidth", "mew"),
   ("markerfacecolor", "mfc"),
   ("markerfacecoloralt", "mfcalt"),
   ("markersize", "ms")]

/-- The body of `Plot._sanitize_plot_properties`: for each `(key, alias)` pair, if the
short alias is present, `kwargs[key] = kwargs.pop(alias)`. -/
def sanitizePlotProperties {V : Type} (kwargs : PropDict V) : PropDict V :=
  propAliases.foldl
    (fun kw la =>
      match dlookup kw la.2 with
      | some v => dinsert (derase kw la.2) la.1 v
      | none => kw)
    kwargs

/-- The body of `Plot._update_properties`: sanitize both dictionaries, then write each
default only for keys absent from the caller's arguments. -/
def updateProperties {V : Type} (kwargs defaults : PropDict V) : PropDict V :=
  let kw := sanitizePlotProperties kwargs
  let df := sanitizePlotProperties defaults
  df.foldl (fun acc kv => if dmem acc kv.1 then acc else dinsert acc kv.1 kv.2) kw

/-! ### Categorical color resolution (`scatter_reduced`, lines 494-510)

`cd_unique = list(np.unique(color_data.values))` sorts and deduplicates the
labels; the three palette shapes (callable colormap, dict, list) produce the
per-category colors `c_unique`; the per-row colors are
`c_unique[[cd_unique.index(x) for x in color_data.values]]` and the legend
update is `dict(zip(cd_unique, c_unique))`. -/

/-- The effect of `np.unique`: the sorted list of distinct elements. -/
def dedupSorted {α : Type} [LinearOrder α] (xs : List α) : List α :=
  (xs.insertionSort (· ≤ ·)).dedup

/-- Python `list.index(x)`: index of the first occurrence. -/
def idxOf {α : Type} [DecidableEq α] (x : α) : List α → ℕ
  | [] => 0
  | u :: us => if u = x then 0 else idxOf x us + 1

/-- The shapes a categorical palette can take at this call site. -/
inductive Palette (α γ : Type) where
  | callable (f : ℚ → γ)
  | mapping (m : List (α × γ))
  | listed (cs : List γ)

/-- The grid `np.linspace(0, 1, n)`. -/
def linspace01 : ℕ → List ℚ
  | 0 => []
  | 1 => [0]
  | Nat.succ (Nat.succ n) => (List.range (n + 2)).map (fun i => (i : ℚ) / (n + 1))

/-- First-binding association-list lookup (a Python dict read). -/
def alookup {α γ : Type} [DecidableEq α] : List (α × γ) → α → Option γ
  | [], _ => none
  | p :: ps, x => if p.1 = x then some p.2 else alookup ps x

/-- Dictionary read `m.get(x, dflt)`. -/
def dictGet {α γ : Type} [DecidableEq α] (m : List (α × γ)) (x : α) (dflt : γ) : γ :=
  (alookup m x).getD dflt

/-- The per-category colors `c_unique` for each palette shape. -/
def paletteColors {α γ : Type} [DecidableEq α]
    (pal : Palette α γ) (dflt : γ) (U : List α) : List γ :=
  match pal with
  | .callable f => (linspace01 U.length).map f
  | .mapping m => U.map (fun x => dictGet m x dflt)
  | .listed cs => cs

/-- The fancy indexing `c_unique[[cd_unique.index(x) for x in values]]`: out-of-range
indexing raises (an `IndexError`, classified as a palette-too-small
configuration error). -/
def indexColors {α γ : Type} [DecidableEq α] (cU : List γ) (U : List α) :
    List α → Except ConfigError (List γ)
  | [] => .ok []
  | x :: xs =>
    match cU[idxOf x U]? with
    | some c => (indexColors cU U xs).map (fun cs => c :: cs)
    | none => .error .paletteTooSmall

/-- The categorical branch of `scatter_reduced`: distinct labels, palette
colors, per-row colors, and the legend mapping recorded on the axes. -/
def resolveCategorical {α γ : Type} [LinearOrder α]
    (pal : Palette α γ) (dflt : γ) (values : List α) :
    Except ConfigError (List γ × List (α × γ)) :=
  let U := dedupSorted values
  let cU := paletteColors pal dflt U
  (indexColors cU U values).map (fun c => (c, U.zip cU))

/-! ### Continuous color resolution (`scatter_reduced`, lines 512-547)

`unmask = ~np.isnan(color_data.values)` flags the non-missing rows;
`cd_min`/`cd_max` reduce over the unmasked entries only (numpy raises on an
empty selection); `cd_norm = (color_data.values - cd_min) / (cd_max - cd_min)`
(numpy division by zero yields a non-finite float, it does not raise);
`c[unmask] = cmap(cd_norm[unmask])` and
`c[~unmask] = mpl.colors.to_rgba(default_color, alpha=0.3)`.
This embeds the `color_log` false branch; the log branch is
`resolveContinuousLog` below. -/

/-- The non-log continuous branch of `scatter_reduced`: per-row colors plus
the resolved domain `(cd_min, cd_max)`. -/
def resolveContinuous (cmap : QFloat → Rgba) (dflt : Rgb) (values : List QFloat) :
    Except ConfigError (List Rgba × ℚ × ℚ) :=
  let nonmissing := values.filterMap id
  match listMin nonmissing, listMax nonmissing with
  | some cdMin, some cdMax =>
    .ok (values.map (fun v =>
          match v with
          | some x => cmap (qdiv (x - cdMin) (cdMax - cdMin))
          | none => to_rgba dflt (3 / 10)),
         cdMin, cdMax)
  | _, _ => .error .emptyColumn

/-! ### The log branch (`scatter_reduced`, lines 519-532)

`cd_min`/`cd_max` are extracted from the raw values, then
`color_data = np.log10(color_data + pc)`, `cd_min = np.log10(cd_min + pc)`,
`cd_max = np.log10(cd_max + pc)`.  This embeds the branch for a column with
no missing entries; `log10` is exact real base-10 logarithm. -/

/-- The transform `np.log10` on a rational input, as an exact real. -/
noncomputable def log10 (x : ℚ) : ℝ :=
  Real.logb 10 (x : ℝ)

/-- The log-transform step of the continuous branch: the transformed values
and the transformed domain bounds. -/
noncomputable def resolveContinuousLog (pc : ℚ) (values : List ℚ) :
    Except ConfigError (List ℝ × ℝ × ℝ) :=
  match listMin values, listMax values with
  | some cdMin, some cdMax =>
    .ok (values.map (fun v => log10 (v + pc)), log10 (cdMin + pc), log10 (cdMax + pc))
  | _, _ => .error .emptyColumn

/-! ### Dot-plot size and color encoding (`dot_plot`, lines 1122-1123 and
1182-1206)

`size_fun(fraction) = min_size + (fraction * 11)**2`; for each point,
`size = size_fun(fraction)` and `shade = (level - vm) / (vM - vm)` where the
domain bounds come from `vmin`/`vmax` ('min'/'max' reduce over the level
column, a float is used as given).  numpy float division by zero yields a
non-finite shade rather than raising. -/

/-- The local `size_fun` of `dot_plot`. -/
def size_fun (min_size : ℚ) (fraction : ℚ) : ℚ :=
  min_size + (fraction * 11) ^ 2

/-- A `vmin`/`vmax` argument of `dot_plot`: reduce over the level column or
use a given float. -/
inductive Vlim where
  | auto
  | fixed (v : ℚ)

/-- One aggregated dot: fraction above threshold and mean level. -/
structure DotPoint where
  fraction : ℚ
  level : ℚ
deriving DecidableEq, Repr

/-- Resolve a `vmin` bound against the level column. -/
def resolveVlim (vl : Vlim) (reduce : List ℚ → Option ℚ) (levels : List ℚ) : Option ℚ :=
  match vl with
  | .auto => reduce levels
  | .fixed v => some v

/-- The size-and-shade assignment loop of `dot_plot` for one count column:
`points.at[.., 's'] = size_fun(fraction)` and
`points.at[.., 'c'] = (level - vm) / (vM - vm)`. -/
def dotShadeSizes (min_size : ℚ) (vmin vmax : Vlim) (pts : List DotPoint) :
    Except ConfigError (List (ℚ × QFloat)) :=
  let levels := pts.map DotPoint.level
  match resolveVlim vmin listMin levels, resolveVlim vmax listMax levels with
  | some vm, some vM =>
    .ok (pts.map (fun p => (size_fun min_size p.fraction, qdiv (p.level - vm) (vM - vm))))
  | _, _ => .error .emptyColumn

/-! ### Quantile tiering for `high_on_top` (`scatter_reduced`, lines 536-541
and 551-566)

`tiers = pd.qcut(cd_norm, np.linspace(0, 1, 5), retbins=False, labels=False,
duplicates='drop')`: bin edges are the quantiles of the data at
`[0, 1/4, 1/2, 3/4, 1]` (linear interpolation at position `t * (n - 1)` in
the sorted data), duplicate edges are collapsed (`np.unique`), and each row
is labelled with the index of its half-open bin `(edge_i, edge_{i+1}]`, the
lowest bin closed on the left.  Rows are then plotted one tier at a time in
ascending order of `np.sort(np.unique(tiers))`. -/

/-- One linearly interpolated quantile of an (already sorted) list, at
fraction `t`: the value at position `t * (n - 1)`. -/
def quantileSorted (xs : List ℚ) (t : ℚ) : ℚ :=
  let h := t * ((xs.length : ℚ) - 1)
  let i := (⌊h⌋).toNat
  let lo := xs.getD i 0
  let hi := xs.getD (i + 1) lo
  lo + (h - (i : ℚ)) * (hi - lo)

/-- The collapsed bin edges of `pd.qcut(values, np.linspace(0, 1, 5), ...,
duplicates='drop')`. -/
def qcutBins (values : List ℚ) : List ℚ :=
  dedupSorted ((linspace01 5).map (quantileSorted (values.insertionSort (· ≤ ·))))

/-- Index of the first element of `bs` that is `≥ v` (the right-closed bin
that `v` falls into, counting from the second edge). -/
def searchLE (v : ℚ) : List ℚ → Option ℕ
  | [] => none
  | b :: bs => if v ≤ b then some 0 else (searchLE v bs).map (· + 1)

/-- The bin label of `v` for edges `bins`: `none` models the NaN label for a
value outside every bin, `some i` the integer label of bin
`(bins[i], bins[i+1]]` (with the lowest bin including its left edge). -/
def cutCode (bins : List ℚ) (v : ℚ) : Option ℕ :=
  match bins with
  | [] => none
  | b0 :: rest => if v < b0 then none else searchLE v rest

/-- The tier labels of `pd.qcut(values, np.linspace(0, 1, 5), labels=False,
duplicates='drop')`, one per row. -/
def qcutQuarters (values : List ℚ) : List (Option ℕ) :=
  values.map (cutCode (qcutBins values))

/-- The rendering loop of `scatter_reduced` (lines 551-566): one batch per
tier value, in ascending order of `np.sort(np.unique(tiers))`, each batch
carrying the row indices whose tier equals the batch's tier. -/
def renderBatches (tiers : List ℕ) : List (ℕ × List ℕ) :=
  (dedupSorted tiers).map
    (fun t => (t, (List.range tiers.length).filter (fun i => decide (tiers.getD i 0 = t))))

/-! ### The color dispatch of `scatter_reduced` (lines 472-549)

With `color_by=None` only `kwargs['color'] = default_color` happens (lines
474-475): no per-row color array, no domain, no `ax._singlet_cmap` legend
update, and `tiers = np.ones(n)` keeps every row in one rendering batch.
Otherwise the categorical or continuous branch runs. -/

/-- The column selected by `color_by` (metadata lookup already performed). -/
inductive ColorColumn (α : Type) where
  | categorical (labels : List α)
  | continuousColumn (values : List QFloat)

/-- What ends up in the scatter call's keyword arguments: a single color for
all dots, or one color per row. -/
inductive ColorSpec where
  | uniform (c : Rgb)
  | perRow (cs : List Rgba)
deriving DecidableEq

/-- The observable coloring outcome of `scatter_reduced`: the color keyword,
the update applied to `ax._singlet_cmap` (if any), and the resolved
continuous domain (if any). -/
structure ScatterColoring (α : Type) where
  spec : ColorSpec
  legendUpdate : Option (List (α × Rgba))
  domain : Option (ℚ × ℚ)

/-- The color dispatch of `scatter_reduced` on the three shapes of
`color_by`. -/
def scatterColors {α : Type} [LinearOrder α] (colorBy : Option (ColorColumn α))
    (pal : Palette α Rgba) (cmapC : QFloat → Rgba) (dflt : Rgb) :
    Except ConfigError (ScatterColoring α) :=
  match colorBy with
  | none => .ok ⟨.uniform dflt, none, none⟩
  | some (.categorical ls) =>
    (resolveCategorical pal (to_rgba dflt 1) ls).map
      (fun pr => ⟨.perRow pr.1, some pr.2, none⟩)
  | some (.continuousColumn vs) =>
    (resolveContinuous cmapC dflt vs).map
      (fun r => ⟨.perRow r.1, none, some r.2⟩)

/-! ## Lemmas and claim theorems -/

/-! Lemmas about the dictionary operations. -/

theorem dlookup_dinsert_self {V : Type} (d : PropDict V) (k : String) (v : V) :
    dlookup (dinsert d k v) k = some v := by
  induction d with
  | nil => simp [dinsert, dlookup]
  | cons p ps ih =>
    by_cases h : p.1 = k
    · simp [dinsert, dlookup, h]
    · simp [dinsert, dlookup, h, ih]

theorem dlookup_dinsert_ne {V : Type} (d : PropDict V) (k k' : String) (v : V)
    (h : k ≠ k') : dlookup (dinsert d k v) k' = dlookup d k' := by
  induction d with
  | nil => simp [dinsert, dlookup, h]
  | cons p ps ih =>
    by_cases hp : p.1 = k
    · subst hp
      simp [dinsert, dlookup, h]
    · by_cases hp' : p.1 = k'
      · simp [dinsert, dlookup, hp, hp', Ne.symm h]
      · simp [dinsert, dlookup, hp, hp', ih]

/-- Filling in defaults never changes a key that is already present. -/
theorem dlookup_fillDefaults {V : Type} (df : List (String × V)) (acc : PropDict V)
    (k : String) (v : V) (h : dlookup acc k = some v) :
    dlookup (df.foldl
      (fun acc kv => if dmem acc kv.1 then acc else dinsert acc kv.1 kv.2) acc) k
      = some v := by
  induction df generalizing acc with
  | nil => exact h
  | cons kv df ih =>
    simp only [List.foldl_cons]
    by_cases hm : dmem acc kv.1
    · rw [if_pos hm]
      exact ih acc h
    · rw [if_neg hm]
      by_cases hk : kv.1 = k
      · subst hk
        exact absurd (by simp [dmem, h]) hm
      · exact ih _ (by rw [dlookup_dinsert_ne _ _ _ _ hk]; exact h)

/-! Lemmas about `dedupSorted`, `idxOf` and `indexColors`. -/

theorem mem_dedupSorted {α : Type} [LinearOrder α] {xs : List α} {a : α} :
    a ∈ dedupSorted xs ↔ a ∈ xs := by
  unfold dedupSorted
  rw [List.mem_dedup, (List.perm_insertionSort _ xs).mem_iff]

theorem nodup_dedupSorted {α : Type} [LinearOrder α] (xs : List α) :
    (dedupSorted xs).Nodup :=
  List.nodup_dedup _

theorem sorted_dedupSorted {α : Type} [LinearOrder α] (xs : List α) :
    List.Sorted (· ≤ ·) (dedupSorted xs) :=
  (List.sorted_insertionSort _ xs).sublist (List.dedup_sublist _)

theorem sortedLT_dedupSorted {α : Type} [LinearOrder α] (xs : List α) :
    List.Sorted (· < ·) (dedupSorted xs) :=
  (sorted_dedupSorted xs).lt_of_le (nodup_dedupSorted xs)

theorem length_dedupSorted_le {α : Type} [LinearOrder α] (xs : List α) :
    (dedupSorted xs).length ≤ xs.length := by
  calc (dedupSorted xs).length ≤ (xs.insertionSort (· ≤ ·)).length :=
        (List.dedup_sublist _).length_le
    _ = xs.length := (List.perm_insertionSort _ xs).length_eq

theorem idxOf_lt_length {α : Type} [DecidableEq α] {x : α} {U : List α}
    (h : x ∈ U) : idxOf x U < U.length := by
  induction U with
  | nil => cases h
  | cons u us ih =>
    by_cases hu : u = x
    · simp [idxOf, hu]
    · have hx : x ∈ us := by
        rcases List.mem_cons.mp h with h1 | h1
        · exact absurd h1.symm hu
        · exact h1
      simp only [idxOf, if_neg hu, List.length_cons]
      exact Nat.succ_lt_succ (ih hx)

/-- In a duplicate-free list the last element's first-occurrence index is the
last position. -/
theorem idxOf_getLast {α : Type} [DecidableEq α] (U : List α) (hne : U ≠ [])
    (hnd : U.Nodup) : idxOf (U.getLast hne) U = U.length - 1 := by
  induction U with
  | nil => exact absurd rfl hne
  | cons u us ih =>
    cases us with
    | nil => simp [idxOf, List.getLast]
    | cons v vs =>
      have hne' : v :: vs ≠ [] := by simp
      have hlast : (u :: v :: vs).getLast hne = (v :: vs).getLast hne' := by
        simp [List.getLast]
      have hmem : (v :: vs).getLast hne' ∈ v :: vs := List.getLast_mem hne'
      have hu : u ≠ (v :: vs).getLast hne' := by
        intro he
        exact (List.nodup_cons.mp hnd).1 (he ▸ hmem)
      have hstep : idxOf ((v :: vs).getLast hne') (u :: v :: vs)
          = idxOf ((v :: vs).getLast hne') (v :: vs) + 1 := by
        simp [idxOf, hu]
      rw [hlast, hstep, ih hne' (List.nodup_cons.mp hnd).2]
      simp

/-- Association lookup in `U.zip cU` agrees with positional indexing through
the first-occurrence index. -/
theorem alookup_zip_eq_get {α γ : Type} [DecidableEq α]
    (U : List α) (cU : List γ) (x : α) (hx : x ∈ U) :
    alookup (U.zip cU) x = cU[idxOf x U]? := by
  induction U generalizing cU with
  | nil => cases hx
  | cons u us ih =>
    cases cU with
    | nil =>
      simp [alookup, List.zip]
    | cons c cs =>
      by_cases hu : u = x
      · simp [alookup, idxOf, hu, List.zip]
      · have hx' : x ∈ us := by
          rcases List.mem_cons.mp hx with h1 | h1
          · exact absurd h1.symm hu
          · exact h1
        have hz : (u :: us).zip (c :: cs) = (u, c) :: us.zip cs := rfl
        have ha : alookup ((u, c) :: us.zip cs) x = alookup (us.zip cs) x := by
          simp [alookup, hu]
        have hi : idxOf x (u :: us) = idxOf x us + 1 := by
          simp [idxOf, hu]
        rw [hz, ha, ih cs hx', hi]
        simp

theorem indexColors_ok_length {α γ : Type} [DecidableEq α]
    {cU : List γ} {U : List α} {xs : List α} {cs : List γ}
    (h : indexColors cU U xs = .ok cs) : cs.length = xs.length := by
  induction xs generalizing cs with
  | nil =>
    simp only [indexColors] at h
    cases h
    rfl
  | cons x xs ih =>
    simp only [indexColors] at h
    cases hg : cU[idxOf x U]? with
    | none => rw [hg] at h; cases h
    | some c =>
      rw [hg] at h
      cases hr : indexColors cU U xs with
      | error e => rw [hr] at h; cases h
      | ok cs' =>
        rw [hr] at h
        simp only [Except.map] at h
        cases h
        simp [ih hr]

theorem indexColors_ok_get {α γ : Type} [DecidableEq α]
    {cU : List γ} {U : List α} {xs : List α} {cs : List γ}
    (h : indexColors cU U xs = .ok cs) :
    ∀ i (hi : i < xs.length) (hi' : i < cs.length),
      cU[idxOf (xs.get ⟨i, hi⟩) U]? = some (cs.get ⟨i, hi'⟩) := by
  induction xs generalizing cs with
  | nil => intro i hi; cases hi
  | cons x xs ih =>
    simp only [indexColors] at h
    cases hg : cU[idxOf x U]? with
    | none => rw [hg] at h; cases h
    | some c =>
      rw [hg] at h
      cases hr : indexColors cU U xs with
      | error e => rw [hr] at h; cases h
      | ok cs' =>
        rw [hr] at h
        simp only [Except.map] at h
        cases h
        intro i hi hi'
        cases i with
        | zero => simpa using hg
        | succ n =>
          exact ih hr n (Nat.lt_of_succ_lt_succ hi) (Nat.lt_of_succ_lt_succ hi')

/-- If some row's label indexes past the end of the palette colors, the
categorical indexing raises. -/
theorem indexColors_error_of_exists {α γ : Type} [DecidableEq α]
    {cU : List γ} {U : List α} {xs : List α}
    (h : ∃ x ∈ xs, cU[idxOf x U]? = none) :
    indexColors cU U xs = .error .paletteTooSmall := by
  induction xs with
  | nil => rcases h with ⟨x, hx, _⟩; cases hx
  | cons x xs ih =>
    rcases h with ⟨y, hy, hyg⟩
    rcases List.mem_cons.mp hy with rfl | hy'
    · simp only [indexColors]
      rw [hyg]
    · simp only [indexColors]
      cases hg : cU[idxOf x U]? with
      | none => rfl
      | some c =>
        rw [ih ⟨y, hy', hyg⟩]
        rfl

/-! Characterization of the numpy reductions `min`/`max`. -/

theorem foldl_min_le_init {α : Type} [LinearOrder α] (xs : List α) (a : α) :
    xs.foldl min a ≤ a := by
  induction xs generalizing a with
  | nil => exact le_refl a
  | cons x xs ih =>
    exact le_trans (ih (min a x)) (min_le_left a x)

theorem foldl_min_le_mem {α : Type} [LinearOrder α] (xs : List α) (a : α) :
    ∀ x ∈ xs, xs.foldl min a ≤ x := by
  induction xs generalizing a with
  | nil => intro x hx; cases hx
  | cons y ys ih =>
    intro x hx
    rcases List.mem_cons.mp hx with rfl | hx'
    · exact le_trans (foldl_min_le_init ys (min a x)) (min_le_right a x)
    · exact ih (min a y) x hx'

theorem foldl_min_mem {α : Type} [LinearOrder α] (xs : List α) (a : α) :
    xs.foldl min a = a ∨ xs.foldl min a ∈ xs := by
  induction xs generalizing a with
  | nil => exact Or.inl rfl
  | cons x xs ih =>
    rcases ih (min a x) with h | h
    · rcases min_choice a x with hm | hm
      · exact Or.inl (by rw [List.foldl_cons, h, hm])
      · exact Or.inr (by rw [List.foldl_cons, h, hm]; exact List.mem_cons_self x xs)
    · exact Or.inr (List.mem_cons_of_mem x h)

theorem foldl_max_init_le {α : Type} [LinearOrder α] (xs : List α) (a : α) :
    a ≤ xs.foldl max a := by
  induction xs generalizing a with
  | nil => exact le_refl a
  | cons x xs ih =>
    exact le_trans (le_max_left a x) (ih (max a x))

theorem foldl_max_mem_le {α : Type} [LinearOrder α] (xs : List α) (a : α) :
    ∀ x ∈ xs, x ≤ xs.foldl max a := by
  induction xs generalizing a with
  | nil => intro x hx; cases hx
  | cons y ys ih =>
    intro x hx
    rcases List.mem_cons.mp hx with rfl | hx'
    · exact le_trans (le_max_right a x) (foldl_max_init_le ys (max a x))
    · exact ih (max a y) x hx'

theorem foldl_max_mem {α : Type} [LinearOrder α] (xs : List α) (a : α) :
    xs.foldl max a = a ∨ xs.foldl max a ∈ xs := by
  induction xs generalizing a with
  | nil => exact Or.inl rfl
  | cons x xs ih =>
    rcases ih (max a x) with h | h
    · rcases max_choice a x with hm | hm
      · exact Or.inl (by rw [List.foldl_cons, h, hm])
      · exact Or.inr (by rw [List.foldl_cons, h, hm]; exact List.mem_cons_self x xs)
    · exact Or.inr (List.mem_cons_of_mem x h)

/-- The reduction `listMin` returns a member that bounds every element from below. -/
theorem listMin_spec {xs : List ℚ} {m : ℚ} (h : listMin xs = some m) :
    m ∈ xs ∧ ∀ x ∈ xs, m ≤ x := by
  cases xs with
  | nil => cases h
  | cons x t =>
    simp only [listMin, Option.some.injEq] at h
    subst h
    constructor
    · rcases foldl_min_mem t x with h1 | h1
      · rw [h1]; exact List.mem_cons_self x t
      · exact List.mem_cons_of_mem x h1
    · intro y hy
      rcases List.mem_cons.mp hy with rfl | hy'
      · exact foldl_min_le_init t y
      · exact foldl_min_le_mem t x y hy'

/-- The reduction `listMax` returns a member that bounds every element from above. -/
theorem listMax_spec {xs : List ℚ} {m : ℚ} (h : listMax xs = some m) :
    m ∈ xs ∧ ∀ x ∈ xs, x ≤ m := by
  cases xs with
  | nil => cases h
  | cons x t =>
    simp only [listMax, Option.some.injEq] at h
    subst h
    constructor
    · rcases foldl_max_mem t x with h1 | h1
      · rw [h1]; exact List.mem_cons_self x t
      · exact List.mem_cons_of_mem x h1
    · intro y hy
      rcases List.mem_cons.mp hy with rfl | hy'
      · exact foldl_max_init_le t y
      · exact foldl_max_mem_le t x y hy'

/-! Lemmas about sorted lists, quantiles, bin search and rendering order. -/

theorem sorted_head_le {α : Type} [Preorder α] {l : List α} (hne : l ≠ [])
    (hs : List.Sorted (· ≤ ·) l) : ∀ y ∈ l, l.head hne ≤ y := by
  cases l with
  | nil => exact absurd rfl hne
  | cons x t =>
    intro y hy
    rcases List.mem_cons.mp hy with rfl | hy'
    · exact le_refl y
    · exact (List.sorted_cons.mp hs).1 y hy'

theorem sorted_le_getLast {α : Type} [Preorder α] {l : List α} (hne : l ≠ [])
    (hs : List.Sorted (· ≤ ·) l) : ∀ y ∈ l, y ≤ l.getLast hne := by
  induction l with
  | nil => exact absurd rfl hne
  | cons x t ih =>
    intro y hy
    cases t with
    | nil =>
      rcases List.mem_cons.mp hy with rfl | h'
      · simp [List.getLast]
      · cases h'
    | cons z zs =>
      have hne' : z :: zs ≠ [] := by simp
      have hlast : (x :: z :: zs).getLast hne = (z :: zs).getLast hne' := by
        simp [List.getLast]
      rw [hlast]
      rcases List.mem_cons.mp hy with rfl | hy'
      · exact (List.sorted_cons.mp hs).1 _ (List.getLast_mem hne')
      · exact ih hne' (List.sorted_cons.mp hs).2 y hy'

/-- The 0-quantile of a nonempty sorted list is its first element. -/
theorem quantileSorted_zero (x : ℚ) (t : List ℚ) :
    quantileSorted (x :: t) 0 = x := by
  simp [quantileSorted]

/-- The 1-quantile of a nonempty sorted list is its last element. -/
theorem quantileSorted_one (x : ℚ) (t : List ℚ) (h1 : x :: t ≠ []) :
    quantileSorted (x :: t) 1 = (x :: t).getLast h1 := by
  have hlen : (1 : ℚ) * (((x :: t).length : ℚ) - 1) = (t.length : ℚ) := by
    push_cast [List.length_cons]
    ring
  have hfl : (⌊(t.length : ℚ)⌋).toNat = t.length := by simp
  have hlt : t.length < (x :: t).length := by simp
  have hget : (x :: t).getD t.length 0 = (x :: t).getLast h1 := by
    rw [List.getD_eq_getElem _ _ hlt, List.getLast_eq_getElem]
    simp
  have hoor : ∀ d : ℚ, (x :: t).getD (t.length + 1) d = d := fun d =>
    List.getD_eq_default _ _ (by simp)
  simp only [quantileSorted, hlen, hfl, hget, hoor]
  ring

theorem searchLE_isSome_of_exists {v : ℚ} {bs : List ℚ} (h : ∃ b ∈ bs, v ≤ b) :
    (searchLE v bs).isSome := by
  induction bs with
  | nil => rcases h with ⟨b, hb, _⟩; cases hb
  | cons b bs ih =>
    by_cases hvb : v ≤ b
    · simp [searchLE, hvb]
    · rcases h with ⟨c, hc, hvc⟩
      rcases List.mem_cons.mp hc with rfl | hc'
      · exact absurd hvc hvb
      · have hrec := ih ⟨c, hc', hvc⟩
        simp only [searchLE, if_neg hvb]
        cases hs : searchLE v bs with
        | none => rw [hs] at hrec; cases hrec
        | some k => simp

theorem searchLE_lt_length {v : ℚ} {bs : List ℚ} {k : ℕ}
    (h : searchLE v bs = some k) : k < bs.length := by
  induction bs generalizing k with
  | nil => cases h
  | cons b bs ih =>
    by_cases hvb : v ≤ b
    · simp only [searchLE, if_pos hvb, Option.some.injEq] at h
      subst h
      simp
    · simp only [searchLE, if_neg hvb] at h
      cases hs : searchLE v bs with
      | none => rw [hs] at h; cases h
      | some k' =>
        rw [hs] at h
        simp only [Option.map_some', Option.some.injEq] at h
        subst h
        simpa using Nat.succ_lt_succ (ih hs)

theorem searchLE_mono {v w : ℚ} (hvw : v ≤ w) {bs : List ℚ} {kv kw : ℕ}
    (hv : searchLE v bs = some kv) (hw : searchLE w bs = some kw) : kv ≤ kw := by
  induction bs generalizing kv kw with
  | nil => cases hv
  | cons b bs ih =>
    by_cases hvb : v ≤ b
    · simp only [searchLE, if_pos hvb, Option.some.injEq] at hv
      subst hv
      exact Nat.zero_le kw
    · have hwb : ¬ w ≤ b := fun hc => hvb (le_trans hvw hc)
      simp only [searchLE, if_neg hvb] at hv
      simp only [searchLE, if_neg hwb] at hw
      cases hsv : searchLE v bs with
      | none => rw [hsv] at hv; cases hv
      | some kv' =>
        cases hsw : searchLE w bs with
        | none => rw [hsw] at hw; cases hw
        | some kw' =>
          rw [hsv] at hv
          rw [hsw] at hw
          simp only [Option.map_some', Option.some.injEq] at hv hw
          subst hv
          subst hw
          exact Nat.succ_le_succ (ih hsv hsw)

theorem cutCode_isSome {bins : List ℚ} {v : ℚ} (hne : bins ≠ [])
    (hlo : bins.head hne ≤ v) (hex : ∃ b ∈ bins.tail, v ≤ b) :
    (cutCode bins v).isSome := by
  cases bins with
  | nil => exact absurd rfl hne
  | cons b0 rest =>
    have hnlt : ¬ v < b0 := not_lt.mpr hlo
    simpa [cutCode, hnlt] using searchLE_isSome_of_exists hex

theorem cutCode_lt {bins : List ℚ} {v : ℚ} {k : ℕ} (h : cutCode bins v = some k) :
    k + 1 < bins.length := by
  cases bins with
  | nil => cases h
  | cons b0 rest =>
    simp only [cutCode] at h
    by_cases hvb : v < b0
    · rw [if_pos hvb] at h; cases h
    · rw [if_neg hvb] at h
      simpa using Nat.succ_lt_succ (searchLE_lt_length h)

theorem cutCode_mono {bins : List ℚ} {v w : ℚ} (hvw : v ≤ w) {kv kw : ℕ}
    (hv : cutCode bins v = some kv) (hw : cutCode bins w = some kw) : kv ≤ kw := by
  cases bins with
  | nil => cases hv
  | cons b0 rest =>
    simp only [cutCode] at hv hw
    by_cases hvb : v < b0
    · rw [if_pos hvb] at hv; cases hv
    · rw [if_neg hvb] at hv
      by_cases hwb : w < b0
      · rw [if_pos hwb] at hw; cases hw
      · rw [if_neg hwb] at hw
        exact searchLE_mono hvw hv hw

theorem eq_map_some_of_all_isSome {β : Type} {l : List (Option β)}
    (h : ∀ x ∈ l, x.isSome) : ∃ m : List β, l = m.map some := by
  induction l with
  | nil => exact ⟨[], rfl⟩
  | cons x t ih =>
    rcases ih (fun y hy => h y (List.mem_cons_of_mem x hy)) with ⟨m, hm⟩
    cases x with
    | none =>
      have hx := h none (List.mem_cons_self _ _)
      simp at hx
    | some b => exact ⟨b :: m, by rw [hm]; rfl⟩

theorem renderBatches_keys (tiers : List ℕ) :
    (renderBatches tiers).map Prod.fst = dedupSorted tiers := by
  unfold renderBatches
  rw [List.map_map]
  exact List.map_id _

theorem renderBatches_sortedKeys (tiers : List ℕ) :
    List.Sorted (· < ·) ((renderBatches tiers).map Prod.fst) := by
  rw [renderBatches_keys]
  exact sortedLT_dedupSorted tiers

theorem renderBatches_covers (tiers : List ℕ) :
    ∀ i (hi : i < tiers.length), ∃ pr ∈ renderBatches tiers,
      pr.1 = tiers.get ⟨i, hi⟩ ∧ i ∈ pr.2 := by
  intro i hi
  refine ⟨(tiers.get ⟨i, hi⟩,
      (List.range tiers.length).filter
        (fun j => decide (tiers.getD j 0 = tiers.get ⟨i, hi⟩))), ?_, rfl, ?_⟩
  · exact List.mem_map_of_mem _ (mem_dedupSorted.mpr (tiers.get_mem i hi))
  · refine List.mem_filter.mpr ⟨List.mem_range.mpr hi, ?_⟩
    simp [List.getElem?_eq_getElem hi]

theorem dedup_replicate (n : ℕ) (hn : 0 < n) (x : ℕ) :
    (List.replicate n x).dedup = [x] := by
  induction n with
  | zero => cases hn
  | succ m ih =>
    cases m with
    | zero => simp
    | succ k =>
      rw [List.replicate_succ, List.dedup_cons_of_mem (by simp)]
      exact ih (Nat.succ_pos k)

theorem dedupSorted_replicate (n : ℕ) (hn : 0 < n) :
    dedupSorted (List.replicate n (1 : ℕ)) = [1] := by
  unfold dedupSorted
  rw [List.Sorted.insertionSort_eq (List.pairwise_replicate.mpr (Or.inr (le_refl 1)))]
  exact dedup_replicate n hn 1

/-- With `tiers = np.ones(n)` the rendering loop is a single batch holding
every row. -/
theorem renderBatches_replicate_one (n : ℕ) (hn : 0 < n) :
    renderBatches (List.replicate n 1) = [(1, List.range n)] := by
  unfold renderBatches
  rw [List.length_replicate, dedupSorted_replicate n hn, List.map_cons, List.map_nil]
  have hfil : (List.range n).filter
      (fun i => decide ((List.replicate n (1 : ℕ)).getD i 0 = 1)) = List.range n := by
    refine List.filter_eq_self.mpr ?_
    intro i hi
    have hlt : i < (List.replicate n (1 : ℕ)).length := by
      simpa using List.mem_range.mp hi
    simp [List.getElem?_eq_getElem hlt]
  rw [hfil]

/-! ## Claim theorems -/

/-- Claim C9: a property supplied by the caller, whether under its long name
or its short alias, is never overwritten by a default: aliases are renamed to
the long form in both dictionaries, then defaults are written only for keys
absent from the caller's arguments.  Any key present after sanitizing the
caller's arguments keeps its caller-supplied value through
`_update_properties`. -/
theorem caller_properties_never_overwritten {V : Type}
    (kwargs defaults : PropDict V) (k : String) (v : V)
    (h : dlookup (sanitizePlotProperties kwargs) k = some v) :
    dlookup (updateProperties kwargs defaults) k = some v := by
  unfold updateProperties
  exact dlookup_fillDefaults _ _ _ _ h

/-- Witness for C9: a caller-supplied short alias `lw` survives a default for
`linewidth`. -/
theorem caller_properties_never_overwritten_witness :
    dlookup (sanitizePlotProperties [("lw", (7 : ℚ))]) "linewidth" = some 7
    ∧ dlookup (updateProperties [("lw", (7 : ℚ))] [("linewidth", 2), ("c", 5)])
        "linewidth" = some 7 := by
  have h : dlookup (sanitizePlotProperties [("lw", (7 : ℚ))]) "linewidth" = some 7 := by
    decide
  exact ⟨h, caller_properties_never_overwritten _ _ _ _ h⟩

/-- Claim C10: with `color_by=None`, `scatter_reduced` only sets the uniform
default color: no per-row color array, no resolved domain, no legend-map
update on the axes; the all-ones tier vector renders every row in one batch. -/
theorem scatter_colorBy_none {α : Type} [LinearOrder α]
    (pal : Palette α Rgba) (cmapC : QFloat → Rgba) (dflt : Rgb) (n : ℕ) (hn : 0 < n) :
    scatterColors (Option.none : Option (ColorColumn α)) pal cmapC dflt
      = .ok ⟨.uniform dflt, none, none⟩
    ∧ renderBatches (List.replicate n 1) = [(1, List.range n)] :=
  ⟨rfl, renderBatches_replicate_one n hn⟩

/-- Witness for C10 at a concrete palette, colormap, default color and row
count. -/
theorem scatter_colorBy_none_witness :
    (0 < 3)
    ∧ scatterColors (Option.none : Option (ColorColumn ℕ))
        (.listed []) (fun _ => ⟨0, 0, 0, 1⟩) ⟨1, 1, 1⟩
        = .ok ⟨.uniform ⟨1, 1, 1⟩, none, none⟩
    ∧ renderBatches (List.replicate 3 1) = [(1, List.range 3)] :=
  ⟨by decide,
   (scatter_colorBy_none (.listed []) (fun _ => ⟨0, 0, 0, 1⟩) ⟨1, 1, 1⟩ 3 (by decide)).1,
   (scatter_colorBy_none (α := ℕ) (.listed []) (fun _ => ⟨0, 0, 0, 1⟩) ⟨1, 1, 1⟩ 3
      (by decide)).2⟩

/-- Claim C8: the dot-plot size encoding is
`size = min_size + (fraction * 11) ** 2` for every fraction, with no clamping
of out-of-range fractions; `size_from_fraction(0.5, min_size=2) = 32.25`. -/
theorem size_from_fraction_spec :
    (∀ min_size fraction : ℚ, size_fun min_size fraction
      = min_size + (fraction * 11) ^ 2)
    ∧ size_fun 2 (1 / 2) = 129 / 4
    ∧ size_fun 2 (3 / 2) = 1097 / 4
    ∧ size_fun 2 (3 / 2) ≠ size_fun 2 1 := by
  refine ⟨fun ms f => rfl, by norm_num [size_fun], by norm_num [size_fun],
    by norm_num [size_fun]⟩

/-- Claim C2: for a continuous column with at least one missing entry, every
missing row gets the default color at alpha 0.3, every non-missing row gets
the colormap color of its normalized value, and the domain bounds are the
min/max of the non-missing entries only. -/
theorem continuous_missing_handling (cmap : QFloat → Rgba) (dflt : Rgb)
    (values : List QFloat) (c : List Rgba) (mn mx : ℚ)
    (hmiss : none ∈ values)
    (h : resolveContinuous cmap dflt values = .ok (c, mn, mx)) :
    c.length = values.length
    ∧ (∀ i (hi : i < values.length) (hi' : i < c.length),
        values.get ⟨i, hi⟩ = none → c.get ⟨i, hi'⟩ = to_rgba dflt (3 / 10))
    ∧ (∀ i (hi : i < values.length) (hi' : i < c.length) (x : ℚ),
        values.get ⟨i, hi⟩ = some x →
          c.get ⟨i, hi'⟩ = cmap (qdiv (x - mn) (mx - mn)))
    ∧ (some mn ∈ values ∧ ∀ x : ℚ, some x ∈ values → mn ≤ x)
    ∧ (some mx ∈ values ∧ ∀ x : ℚ, some x ∈ values → x ≤ mx) := by
  simp only [resolveContinuous] at h
  cases hmin : listMin (values.filterMap id) with
  | none =>
    rw [hmin] at h
    cases hmax : listMax (values.filterMap id) <;> rw [hmax] at h <;> cases h
  | some cdMin =>
    cases hmax : listMax (values.filterMap id) with
    | none => rw [hmin, hmax] at h; cases h
    | some cdMax =>
      rw [hmin, hmax] at h
      injection h with h'
      injection h' with hc hrest
      injection hrest with hmn hmx
      subst hc
      subst hmn
      subst hmx
      have hminspec := listMin_spec hmin
      have hmaxspec := listMax_spec hmax
      have hmemiff : ∀ x : ℚ, x ∈ values.filterMap id ↔ some x ∈ values := by
        intro x
        simp [List.mem_filterMap]
      refine ⟨by simp, ?_, ?_, ?_, ?_⟩
      · intro i hi hi' hnone
        have hv : values[i] = (none : QFloat) := hnone
        rw [List.get_eq_getElem, List.getElem_map, hv]
      · intro i hi hi' x hx
        have hv : values[i] = (some x : QFloat) := hx
        rw [List.get_eq_getElem, List.getElem_map, hv]
      · exact ⟨(hmemiff cdMin).mp hminspec.1,
          fun x hx => hminspec.2 x ((hmemiff x).mpr hx)⟩
      · exact ⟨(hmemiff cdMax).mp hmaxspec.1,
          fun x hx => hmaxspec.2 x ((hmemiff x).mpr hx)⟩

/-- Witness for C2 at the spec's example `[1, 2, missing, 4]`: the resolved
domain is `(1, 4)`, the missing row gets the default color at alpha 0.3, and
one color is produced per row. -/
theorem continuous_missing_handling_witness :
    resolveContinuous (fun _ => ⟨0, 0, 0, 1⟩) ⟨1 / 2, 1 / 2, 1 / 2⟩
        [some 1, some 2, none, some 4]
      = .ok ([⟨0, 0, 0, 1⟩, ⟨0, 0, 0, 1⟩, ⟨1 / 2, 1 / 2, 1 / 2, 3 / 10⟩, ⟨0, 0, 0, 1⟩], 1, 4)
    ∧ (none ∈ ([some 1, some 2, none, some 4] : List QFloat))
    ∧ ([⟨0, 0, 0, 1⟩, ⟨0, 0, 0, 1⟩, ⟨1 / 2, 1 / 2, 1 / 2, 3 / 10⟩,
        (⟨0, 0, 0, 1⟩ : Rgba)]).length
      = ([some 1, some 2, none, some 4] : List QFloat).length := by
  have h : resolveContinuous (fun _ => ⟨0, 0, 0, 1⟩) ⟨1 / 2, 1 / 2, 1 / 2⟩
      [some 1, some 2, none, some 4]
      = .ok ([⟨0, 0, 0, 1⟩, ⟨0, 0, 0, 1⟩, ⟨1 / 2, 1 / 2, 1 / 2, 3 / 10⟩, ⟨0, 0, 0, 1⟩],
          1, 4) := by
    rfl
  exact ⟨h, by simp,
    (continuous_missing_handling _ _ _ _ _ _ (by simp) h).1⟩

/-- Counterexample to C3: on the constant column `[5, 5, 5]` the continuous
resolution does not raise; it returns colors for every row (the division by
the zero-width domain yields non-finite normalized values that the colormap
still maps to a color). -/
theorem degenerate_domain_not_rejected :
    resolveContinuous (fun _ => ⟨0, 0, 0, 1⟩) ⟨1 / 2, 1 / 2, 1 / 2⟩
        [some 5, some 5, some 5]
      = .ok ([⟨0, 0, 0, 1⟩, ⟨0, 0, 0, 1⟩, ⟨0, 0, 0, 1⟩], 5, 5)
    ∧ resolveContinuous (fun _ => ⟨0, 0, 0, 1⟩) ⟨1 / 2, 1 / 2, 1 / 2⟩
        [some 5, some 5, some 5]
      ≠ .error ConfigError.paletteTooSmall
    ∧ resolveContinuous (fun _ => ⟨0, 0, 0, 1⟩) ⟨1 / 2, 1 / 2, 1 / 2⟩
        [some 5, some 5, some 5]
      ≠ .error ConfigError.emptyColumn := by
  refine ⟨rfl, ?_, ?_⟩ <;> intro hc <;> cases hc

/-- Claim C3 as amended: the code performs no degenerate-domain check and
raises nothing.  On a constant column the resolved domain is `(v, v)`,
normalization divides by zero so every normalized value is non-finite, and
every row still receives the colormap's color for a non-finite input. -/
theorem filterMap_id_const {v : ℚ} :
    ∀ values : List QFloat, (∀ w ∈ values, w = some v) →
      values.filterMap id = values.map (fun _ => v)
  | [], _ => rfl
  | w :: ws, hconst => by
    have hw : w = some v := hconst w (List.mem_cons_self _ _)
    subst hw
    have ih := filterMap_id_const ws (fun u hu => hconst u (List.mem_cons_of_mem _ hu))
    simp only [List.filterMap_cons, id, List.map_cons, ih]

theorem foldl_min_all (l : List ℚ) (a : ℚ) (h : ∀ x ∈ l, x = a) :
    l.foldl min a = a := by
  induction l with
  | nil => rfl
  | cons x xs ih =>
    have hx : x = a := h x (List.mem_cons_self _ _)
    subst hx
    rw [List.foldl_cons, min_self]
    exact ih (fun y hy => h y (List.mem_cons_of_mem _ hy))

theorem foldl_max_all (l : List ℚ) (a : ℚ) (h : ∀ x ∈ l, x = a) :
    l.foldl max a = a := by
  induction l with
  | nil => rfl
  | cons x xs ih =>
    have hx : x = a := h x (List.mem_cons_self _ _)
    subst hx
    rw [List.foldl_cons, max_self]
    exact ih (fun y hy => h y (List.mem_cons_of_mem _ hy))

theorem degenerate_domain_behavior (cmap : QFloat → Rgba) (dflt : Rgb)
    (v : ℚ) (values : List QFloat) (hne : values ≠ [])
    (hconst : ∀ w ∈ values, w = some v) :
    resolveContinuous cmap dflt values
      = .ok (values.map (fun _ => cmap none), v, v) := by
  obtain ⟨w, ws, rfl⟩ : ∃ w ws, values = w :: ws := by
    cases values with
    | nil => exact absurd rfl hne
    | cons w ws => exact ⟨w, ws, rfl⟩
  have hall : ∀ x ∈ ws.map (fun _ => v), x = v := by
    intro x hx
    rcases List.mem_map.mp hx with ⟨y, _, hfy⟩
    exact hfy.symm
  have hmin : listMin ((w :: ws).filterMap id) = some v := by
    rw [filterMap_id_const _ hconst]
    simp only [List.map_cons, listMin]
    rw [foldl_min_all _ v hall]
  have hmax : listMax ((w :: ws).filterMap id) = some v := by
    rw [filterMap_id_const _ hconst]
    simp only [List.map_cons, listMax]
    rw [foldl_max_all _ v hall]
  have hmapeq : (w :: ws).map (fun u =>
      match u with
      | some x => cmap (qdiv (x - v) (v - v))
      | none => to_rgba dflt (3 / 10)) = (w :: ws).map (fun _ => cmap none) := by
    apply List.map_congr_left
    intro u hu
    rw [hconst u hu]
    simp [qdiv]
  simp only [resolveContinuous, hmin, hmax]
  rw [hmapeq]

/-- Witness for the amended C3 at the spec's example `[5, 5, 5]`. -/
theorem degenerate_domain_behavior_witness :
    ([some 5, some 5, some 5] : List QFloat) ≠ []
    ∧ resolveContinuous (fun _ => ⟨0, 0, 0, 1⟩) ⟨1 / 2, 1 / 2, 1 / 2⟩
        [some 5, some 5, some 5]
      = .ok (([some 5, some 5, some 5] : List QFloat).map
          (fun _ : QFloat => (fun _ : QFloat => (⟨0, 0, 0, 1⟩ : Rgba)) (none : QFloat)),
          5, 5) :=
  ⟨by simp,
   degenerate_domain_behavior (fun _ => ⟨0, 0, 0, 1⟩) ⟨1 / 2, 1 / 2, 1 / 2⟩ 5
     [some 5, some 5, some 5] (by simp) (by simp)⟩

/-- Counterexample to C6: with the explicit domain `[0, 1]`, a level of `2`
normalizes to `2`, outside `[0, 1]` — the dot-plot normalization is not
clamped. -/
theorem normalization_not_clamped :
    dotShadeSizes 2 (.fixed 0) (.fixed 1) [⟨0, 2⟩]
      = .ok [(size_fun 2 0, some 2)]
    ∧ ¬ ((2 : ℚ) ≤ 1) := by
  constructor
  · norm_num [dotShadeSizes, resolveVlim, qdiv]
  · norm_num

/-- Claim C6 as amended: each value is normalized to
`(v - domain_min) / (domain_max - domain_min)` with no clamping; with the
explicit domain `[0, 1]` every level (in `[0, 1]` or not) normalizes to
itself exactly. -/
theorem continuous_normalization (ms a b : ℚ) (pts : List DotPoint) :
    dotShadeSizes ms (.fixed a) (.fixed b) pts
      = .ok (pts.map (fun p => (size_fun ms p.fraction, qdiv (p.level - a) (b - a))))
    ∧ dotShadeSizes ms (.fixed 0) (.fixed 1) pts
      = .ok (pts.map (fun p => (size_fun ms p.fraction, some p.level))) := by
  constructor
  · rfl
  · have hmapeq : pts.map (fun p => (size_fun ms p.fraction, qdiv (p.level - 0) (1 - 0)))
        = pts.map (fun p => (size_fun ms p.fraction, some p.level)) := by
      apply List.map_congr_left
      intro p _
      norm_num [qdiv]
    calc dotShadeSizes ms (.fixed 0) (.fixed 1) pts
        = .ok (pts.map (fun p => (size_fun ms p.fraction, qdiv (p.level - 0) (1 - 0)))) :=
          rfl
      _ = .ok (pts.map (fun p => (size_fun ms p.fraction, some p.level))) := by
          rw [hmapeq]

theorem alookup_mem_snd {α γ : Type} [DecidableEq α] {m : List (α × γ)} {x : α} {g : γ}
    (h : alookup m x = some g) : g ∈ m.map Prod.snd := by
  induction m with
  | nil => cases h
  | cons p ps ih =>
    by_cases hp : p.1 = x
    · simp only [alookup, if_pos hp, Option.some.injEq] at h
      subst h
      simp
    · simp only [alookup, if_neg hp] at h
      simp [ih h]

/-- Claim C1: the categorical coloring path assigns exactly one color to
every row, and the recorded legend mapping's keys are exactly the distinct
input labels, each mapped to the color its rows received (and every output
color appears among the legend values). -/
theorem categorical_round_trip {α γ : Type} [LinearOrder α]
    (pal : Palette α γ) (dflt : γ) (values : List α) (c : List γ) (leg : List (α × γ))
    (h : resolveCategorical pal dflt values = .ok (c, leg)) :
    c.length = values.length
    ∧ leg.map Prod.fst = dedupSorted values
    ∧ (leg.map Prod.fst).Nodup
    ∧ (∀ x : α, x ∈ leg.map Prod.fst ↔ x ∈ values)
    ∧ (∀ i (hi : i < values.length) (hi' : i < c.length),
        alookup leg (values.get ⟨i, hi⟩) = some (c.get ⟨i, hi'⟩))
    ∧ (∀ col ∈ c, col ∈ leg.map Prod.snd) := by
  simp only [resolveCategorical] at h
  cases hic : indexColors (paletteColors pal dflt (dedupSorted values))
      (dedupSorted values) values with
  | error e => rw [hic] at h; cases h
  | ok c' =>
    rw [hic] at h
    simp only [Except.map] at h
    injection h with h'
    injection h' with hc hleg
    subst hc
    subst hleg
    have hcov : (dedupSorted values).length
        ≤ (paletteColors pal dflt (dedupSorted values)).length := by
      by_contra hlt
      push_neg at hlt
      have hUne : dedupSorted values ≠ [] := by
        intro he
        rw [he] at hlt
        simp at hlt
      have hx : (dedupSorted values).getLast hUne ∈ values :=
        mem_dedupSorted.mp (List.getLast_mem hUne)
      have hidx : idxOf ((dedupSorted values).getLast hUne) (dedupSorted values)
          = (dedupSorted values).length - 1 :=
        idxOf_getLast _ hUne (nodup_dedupSorted values)
      have hnone : (paletteColors pal dflt (dedupSorted values))[
          idxOf ((dedupSorted values).getLast hUne) (dedupSorted values)]? = none := by
        rw [hidx]
        apply List.getElem?_eq_none
        have hpos : 0 < (dedupSorted values).length := List.length_pos.mpr hUne
        omega
      rw [indexColors_error_of_exists
        ⟨(dedupSorted values).getLast hUne, hx, hnone⟩] at hic
      cases hic
    have hkeys : ((dedupSorted values).zip
        (paletteColors pal dflt (dedupSorted values))).map Prod.fst
        = dedupSorted values :=
      List.map_fst_zip _ _ hcov
    have hlen : c'.length = values.length := indexColors_ok_length hic
    refine ⟨hlen, hkeys, ?_, ?_, ?_, ?_⟩
    · rw [hkeys]
      exact nodup_dedupSorted values
    · intro x
      rw [hkeys]
      exact mem_dedupSorted
    · intro i hi hi'
      have hxmem : values.get ⟨i, hi⟩ ∈ dedupSorted values :=
        mem_dedupSorted.mpr (values.get_mem i hi)
      rw [alookup_zip_eq_get _ _ _ hxmem]
      exact indexColors_ok_get hic i hi hi'
    · intro col hcol
      rcases List.mem_iff_get.mp hcol with ⟨⟨i, hi'⟩, hgi⟩
      have hi : i < values.length := by omega
      have hxmem : values.get ⟨i, hi⟩ ∈ dedupSorted values :=
        mem_dedupSorted.mpr (values.get_mem i hi)
      have hal := indexColors_ok_get hic i hi hi'
      rw [← alookup_zip_eq_get _ (paletteColors pal dflt (dedupSorted values)) _ hxmem]
        at hal
      rw [hgi] at hal
      exact alookup_mem_snd hal

/-- Witness for C1: a dict palette on labels `[2, 1, 2]`, with label `2`
falling back to the default color. -/
theorem categorical_round_trip_witness :
    resolveCategorical (Palette.mapping [(1, "x")]) "d" ([2, 1, 2] : List ℕ)
      = .ok (["d", "x", "d"], [(1, "x"), (2, "d")])
    ∧ (["d", "x", "d"] : List String).length = ([2, 1, 2] : List ℕ).length
    ∧ ([(1, "x"), (2, "d")] : List (ℕ × String)).map Prod.fst
      = dedupSorted ([2, 1, 2] : List ℕ) := by
  have h : resolveCategorical (Palette.mapping [(1, "x")]) "d" ([2, 1, 2] : List ℕ)
      = .ok (["d", "x", "d"], [(1, "x"), (2, "d")]) := by
    rfl
  exact ⟨h, (categorical_round_trip _ _ _ _ _ h).1,
    (categorical_round_trip _ _ _ _ _ h).2.1⟩

/-- Claim C4: a list palette with fewer entries than the number of distinct
labels makes categorical color resolution fail (the out-of-range palette
indexing raises) instead of assigning colors. -/
theorem palette_too_small {α γ : Type} [LinearOrder α]
    (cs : List γ) (dflt : γ) (values : List α)
    (h : cs.length < (dedupSorted values).length) :
    resolveCategorical (.listed cs) dflt values = .error .paletteTooSmall := by
  simp only [resolveCategorical]
  have hUne : dedupSorted values ≠ [] := by
    intro he
    rw [he] at h
    simp at h
  have hx : (dedupSorted values).getLast hUne ∈ values :=
    mem_dedupSorted.mp (List.getLast_mem hUne)
  have hidx : idxOf ((dedupSorted values).getLast hUne) (dedupSorted values)
      = (dedupSorted values).length - 1 :=
    idxOf_getLast _ hUne (nodup_dedupSorted values)
  have hpc : paletteColors (Palette.listed cs) dflt (dedupSorted values) = cs := rfl
  have hnone : (paletteColors (Palette.listed cs) dflt (dedupSorted values))[
      idxOf ((dedupSorted values).getLast hUne) (dedupSorted values)]? = none := by
    rw [hidx, hpc]
    apply List.getElem?_eq_none
    have hpos : 0 < (dedupSorted values).length := List.length_pos.mpr hUne
    omega
  rw [indexColors_error_of_exists ⟨(dedupSorted values).getLast hUne, hx, hnone⟩]
  rfl

/-- Witness for C4, mirroring the spec's example: three distinct labels
against the two-color palette `[red, blue]`. -/
theorem palette_too_small_witness :
    (["red", "blue"] : List String).length
      < (dedupSorted ([1, 2, 3] : List ℕ)).length
    ∧ resolveCategorical (.listed ["red", "blue"]) "grey" ([1, 2, 3] : List ℕ)
      = .error .paletteTooSmall := by
  have h : (["red", "blue"] : List String).length
      < (dedupSorted ([1, 2, 3] : List ℕ)).length := by
    decide
  exact ⟨h, palette_too_small _ _ _ h⟩

/-- Claim C5: with log requested and a positive pseudocount, values and
domain bounds are transformed via `log10(v + pseudocount)` before
normalization, so `domain_min = log10(min(values) + pseudocount)` and
`domain_max = log10(max(values) + pseudocount)`, and every transformed value
lies between the transformed bounds. -/
theorem log_transform_domain (pc : ℚ) (values : List ℚ) (tv : List ℝ) (dmn dmx : ℝ)
    (hpc : 0 < pc) (hvals : ∀ v ∈ values, 0 ≤ v)
    (h : resolveContinuousLog pc values = .ok (tv, dmn, dmx)) :
    tv = values.map (fun v => log10 (v + pc))
    ∧ (∃ m, m ∈ values ∧ (∀ x ∈ values, m ≤ x) ∧ dmn = log10 (m + pc))
    ∧ (∃ M, M ∈ values ∧ (∀ x ∈ values, x ≤ M) ∧ dmx = log10 (M + pc))
    ∧ (∀ t ∈ tv, dmn ≤ t ∧ t ≤ dmx) := by
  simp only [resolveContinuousLog] at h
  cases hmin : listMin values with
  | none =>
    rw [hmin] at h
    cases hmax : listMax values <;> rw [hmax] at h <;> cases h
  | some cdMin =>
    cases hmax : listMax values with
    | none => rw [hmin, hmax] at h; cases h
    | some cdMax =>
      rw [hmin, hmax] at h
      injection h with h'
      injection h' with htv hrest
      injection hrest with hmn hmx
      subst htv
      subst hmn
      subst hmx
      have hminspec := listMin_spec hmin
      have hmaxspec := listMax_spec hmax
      have hb : (1 : ℝ) < 10 := by norm_num
      have hmono : ∀ x y : ℚ, 0 ≤ x → x ≤ y → log10 (x + pc) ≤ log10 (y + pc) := by
        intro x y hx hxy
        apply Real.logb_le_logb_of_le hb
        · push_cast
          have : (0 : ℝ) < (pc : ℝ) := by exact_mod_cast hpc
          have : (0 : ℝ) ≤ (x : ℝ) := by exact_mod_cast hx
          linarith [show (0 : ℝ) < (pc : ℝ) from by exact_mod_cast hpc]
        · push_cast
          have : (x : ℝ) ≤ (y : ℝ) := by exact_mod_cast hxy
          linarith
      refine ⟨rfl, ⟨cdMin, hminspec.1, hminspec.2, rfl⟩,
        ⟨cdMax, hmaxspec.1, hmaxspec.2, rfl⟩, ?_⟩
      intro t ht
      rcases List.mem_map.mp ht with ⟨v, hv, rfl⟩
      exact ⟨hmono cdMin v (hvals cdMin hminspec.1) (hminspec.2 v hv),
        hmono v cdMax (hvals v hv) (hmaxspec.2 v hv)⟩

/-- Witness for C5 at the spec's example `[1, 10, 100]` with pseudocount
`0.1`: the domain is `(log10 1.1, log10 100.1)`. -/
theorem log_transform_domain_witness :
    (0 : ℚ) < 1 / 10
    ∧ resolveContinuousLog (1 / 10) [1, 10, 100]
      = .ok ([log10 (1 + 1 / 10), log10 (10 + 1 / 10), log10 (100 + 1 / 10)],
          log10 (1 + 1 / 10), log10 (100 + 1 / 10))
    ∧ [log10 (1 + 1 / 10), log10 (10 + 1 / 10), log10 (100 + 1 / 10)]
      = ([1, 10, 100] : List ℚ).map (fun v => log10 (v + 1 / 10)) := by
  have hmin : listMin [1, 10, 100] = some 1 := by
    norm_num [listMin, min_def]
  have hmax : listMax [1, 10, 100] = some 100 := by
    norm_num [listMax, max_def]
  have h : resolveContinuousLog (1 / 10) [1, 10, 100]
      = .ok ([log10 (1 + 1 / 10), log10 (10 + 1 / 10), log10 (100 + 1 / 10)],
          log10 (1 + 1 / 10), log10 (100 + 1 / 10)) := by
    simp only [resolveContinuousLog, hmin, hmax, List.map_cons, List.map_nil]
  refine ⟨by norm_num, h, ?_⟩
  exact (log_transform_domain (1 / 10) [1, 10, 100] _ _ _ (by norm_num)
    (by intro v hv; fin_cases hv <;> norm_num) h).1

theorem quantileSorted_zero_head (l : List ℚ) (hne : l ≠ []) :
    quantileSorted l 0 = l.head hne := by
  cases l with
  | nil => exact absurd rfl hne
  | cons x t => exact quantileSorted_zero x t

theorem quantileSorted_one_getLast (l : List ℚ) (hne : l ≠ []) :
    quantileSorted l 1 = l.getLast hne := by
  cases l with
  | nil => exact absurd rfl hne
  | cons x t => exact quantileSorted_one x t hne

theorem two_le_length_of_two_mem {α : Type} {l : List α} {x y : α}
    (hx : x ∈ l) (hy : y ∈ l) (hxy : x ≠ y) : 2 ≤ l.length := by
  cases l with
  | nil => cases hx
  | cons z rest =>
    cases rest with
    | nil =>
      have h1 : x = z := by simpa using hx
      have h2 : y = z := by simpa using hy
      exact absurd (h1.trans h2.symm) hxy
    | cons w rest' =>
      simp only [List.length_cons]
      omega

theorem getLast_mem_tail {α : Type} {l : List α} (hne : l ≠ []) (h2 : 2 ≤ l.length) :
    l.getLast hne ∈ l.tail := by
  cases l with
  | nil => exact absurd rfl hne
  | cons z rest =>
    cases rest with
    | nil => simp at h2
    | cons w rest' =>
      have hne' : w :: rest' ≠ [] := by simp
      have hlast : (z :: w :: rest').getLast hne = (w :: rest').getLast hne' := by
        simp [List.getLast]
      rw [hlast]
      exact List.getLast_mem hne'

/-- The grid `np.linspace(0, 1, 5)` evaluated. -/
theorem linspace01_five : linspace01 5 = [0, 1 / 4, 1 / 2, 3 / 4, 1] := by
  show (List.range 5).map (fun i => (i : ℚ) / (3 + 1)) = _
  simp [List.range_succ]
  norm_num

/-- Claim C7: with `high_on_top`, tier assignment quantile-bins the
normalized values into at most 4 equal-population buckets (duplicate edges
collapsed, never an error), one tier per row, tiers non-decreasing with
value order, the maximum-value row in the highest realized tier, and rows
rendered in ascending tier order (highest tier drawn last). -/
theorem high_on_top_tiering (values : List ℚ) (a b : ℚ)
    (ha : a ∈ values) (hb : b ∈ values) (hab : a ≠ b) :
    (qcutQuarters values).length = values.length
    ∧ (∀ o ∈ qcutQuarters values, o.isSome)
    ∧ (∀ k : ℕ, some k ∈ qcutQuarters values → k < 4)
    ∧ (∀ v w : ℚ, v ∈ values → w ∈ values → v ≤ w →
        ∀ kv kw : ℕ, cutCode (qcutBins values) v = some kv →
          cutCode (qcutBins values) w = some kw → kv ≤ kw)
    ∧ (∃ M, M ∈ values ∧ (∀ x ∈ values, x ≤ M) ∧
        (∀ kM : ℕ, cutCode (qcutBins values) M = some kM →
          ∀ x ∈ values, ∀ kx : ℕ, cutCode (qcutBins values) x = some kx → kx ≤ kM))
    ∧ (∃ nt : List ℕ, qcutQuarters values = nt.map some
        ∧ List.Sorted (· < ·) ((renderBatches nt).map Prod.fst)
        ∧ ∀ i (hi : i < nt.length), ∃ pr ∈ renderBatches nt,
            pr.1 = nt.get ⟨i, hi⟩ ∧ i ∈ pr.2) := by
  set sv := values.insertionSort (· ≤ ·) with hsv
  have hperm : ∀ y : ℚ, y ∈ sv ↔ y ∈ values := fun y =>
    (List.perm_insertionSort _ values).mem_iff
  have hsvs : List.Sorted (· ≤ ·) sv := List.sorted_insertionSort _ values
  have hsvne : sv ≠ [] := by
    intro he
    have hamem := (hperm a).mpr ha
    rw [he] at hamem
    cases hamem
  have hmn_le : ∀ y ∈ values, sv.head hsvne ≤ y := fun y hy =>
    sorted_head_le hsvne hsvs y ((hperm y).mpr hy)
  have hle_mx : ∀ y ∈ values, y ≤ sv.getLast hsvne := fun y hy =>
    sorted_le_getLast hsvne hsvs y ((hperm y).mpr hy)
  have hmx_mem : sv.getLast hsvne ∈ values := (hperm _).mp (List.getLast_mem hsvne)
  have hmnmx : sv.head hsvne ≠ sv.getLast hsvne := by
    intro he
    apply hab
    have h1 : a ≤ sv.head hsvne := by rw [he]; exact hle_mx a ha
    have h2 : b ≤ sv.head hsvne := by rw [he]; exact hle_mx b hb
    have ha' : a = sv.head hsvne := le_antisymm h1 (hmn_le a ha)
    have hb' : b = sv.head hsvne := le_antisymm h2 (hmn_le b hb)
    rw [ha', hb']
  have hBeq : qcutBins values = dedupSorted ((linspace01 5).map (quantileSorted sv)) :=
    rfl
  have hq0 : quantileSorted sv 0 = sv.head hsvne := quantileSorted_zero_head sv hsvne
  have hq1 : quantileSorted sv 1 = sv.getLast hsvne := quantileSorted_one_getLast sv hsvne
  have h0lin : (0 : ℚ) ∈ linspace01 5 := by rw [linspace01_five]; norm_num
  have h1lin : (1 : ℚ) ∈ linspace01 5 := by rw [linspace01_five]; norm_num
  have hmnB : sv.head hsvne ∈ qcutBins values := by
    rw [hBeq, ← hq0]
    exact mem_dedupSorted.mpr (List.mem_map_of_mem _ h0lin)
  have hmxB : sv.getLast hsvne ∈ qcutBins values := by
    rw [hBeq, ← hq1]
    exact mem_dedupSorted.mpr (List.mem_map_of_mem _ h1lin)
  have hBne : qcutBins values ≠ [] := List.ne_nil_of_mem hmnB
  have hBsorted : List.Sorted (· ≤ ·) (qcutBins values) := by
    rw [hBeq]
    exact sorted_dedupSorted _
  have h2B : 2 ≤ (qcutBins values).length := two_le_length_of_two_mem hmnB hmxB hmnmx
  have h5B : (qcutBins values).length ≤ 5 := by
    rw [hBeq]
    calc (dedupSorted ((linspace01 5).map (quantileSorted sv))).length
        ≤ ((linspace01 5).map (quantileSorted sv)).length := length_dedupSorted_le _
      _ = (linspace01 5).length := List.length_map _ _
      _ = 5 := by rw [linspace01_five]; rfl
  have hBlo : ∀ v ∈ values, (qcutBins values).head hBne ≤ v := fun v hv =>
    le_trans (le_trans (sorted_head_le hBne hBsorted _ hmnB) (le_refl _)) (hmn_le v hv)
  have hBhi : ∀ v ∈ values, v ≤ (qcutBins values).getLast hBne := fun v hv =>
    le_trans (hle_mx v hv) (sorted_le_getLast hBne hBsorted _ hmxB)
  have htot : ∀ v ∈ values, (cutCode (qcutBins values) v).isSome := fun v hv =>
    cutCode_isSome hBne (hBlo v hv)
      ⟨(qcutBins values).getLast hBne, getLast_mem_tail hBne h2B, hBhi v hv⟩
  have hqq : qcutQuarters values = values.map (cutCode (qcutBins values)) := rfl
  have hsome : ∀ o ∈ qcutQuarters values, o.isSome := by
    intro o ho
    rw [hqq] at ho
    rcases List.mem_map.mp ho with ⟨v, hv, rfl⟩
    exact htot v hv
  refine ⟨by simp [hqq], hsome, ?_, ?_, ?_, ?_⟩
  · intro k hk
    rw [hqq] at hk
    rcases List.mem_map.mp hk with ⟨v, _, hcv⟩
    have := cutCode_lt hcv
    omega
  · intro v w hv hw hvw kv kw hkv hkw
    exact cutCode_mono hvw hkv hkw
  · refine ⟨sv.getLast hsvne, hmx_mem, hle_mx, ?_⟩
    intro kM hkM x hx kx hkx
    exact cutCode_mono (hle_mx x hx) hkx hkM
  · obtain ⟨nt, hnt⟩ := eq_map_some_of_all_isSome hsome
    exact ⟨nt, hnt, renderBatches_sortedKeys nt, renderBatches_covers nt⟩

/-- Witness for C7 at the spec's example `[0.0, 0.1, 0.5, 0.9, 1.0]` with 4
buckets. -/
theorem high_on_top_tiering_witness :
    ((0 : ℚ) ∈ ([0, 1 / 10, 1 / 2, 9 / 10, 1] : List ℚ))
    ∧ ((1 : ℚ) ∈ ([0, 1 / 10, 1 / 2, 9 / 10, 1] : List ℚ))
    ∧ ((0 : ℚ) ≠ 1)
    ∧ (qcutQuarters [0, 1 / 10, 1 / 2, 9 / 10, 1]).length
      = ([0, 1 / 10, 1 / 2, 9 / 10, 1] : List ℚ).length := by
  have ha : (0 : ℚ) ∈ ([0, 1 / 10, 1 / 2, 9 / 10, 1] : List ℚ) := by norm_num
  have hb : (1 : ℚ) ∈ ([0, 1 / 10, 1 / 2, 9 / 10, 1] : List ℚ) := by norm_num
  have hab : (0 : ℚ) ≠ 1 := by norm_num
  exact ⟨ha, hb, hab,
    (high_on_top_tiering [0, 1 / 10, 1 / 2, 9 / 10, 1] 0 1 ha hb hab).1⟩

end Singlet

